import Mathlib

/-!
Shallow embedding of a small monophonic 4-operator FM synthesizer
(Rust source: `src/main.rs`).  The audio core consists of an ADSR
`Envelope` (whose stage is stored, as in the source, as a numeric
"phase" field compared against 0/1/2/3), an `Operator` (a
phase-accumulating sine oscillator with self-feedback, optional hard
sync implemented with the Rust `%` remainder, and bit-crush
quantization), and an `FMSynth` rendering a serial 4-operator chain.

Here `f32` arithmetic is idealized as exact arithmetic: the `Envelope`
is defined over an arbitrary linear ordered field (instantiated at `ℚ`
for concrete evaluations and at `ℝ` inside the operator), and the
operator/synth layer is defined over `ℝ` with `Real.sin` / `Real.pi`.
Rust-specific numeric primitives (`round`, which rounds half away from
zero, the `%` remainder, and `clamp`) are modelled explicitly.
-/

namespace FM

/-- ADSR envelope state, mirroring the Rust `Envelope` struct.  The
`phase` field is the envelope *stage* number (0 = attack, 1 = decay,
2 = sustain, 3 = release), stored numerically as in the source. -/
structure Envelope (α : Type*) where
  attack : α
  decay : α
  sustain : α
  release : α
  phase : α
  level : α
  active : Bool

variable {α : Type*} [LinearOrderedField α]

/-- Rust `Envelope::new`: fresh envelope, level 0, stage 0, inactive. -/
def Envelope.new (attack decay sustain release : α) : Envelope α :=
  { attack := attack, decay := decay, sustain := sustain, release := release,
    phase := 0, level := 0, active := false }

/-- Rust `Envelope::note_on`: reset stage and level, activate. -/
def Envelope.note_on (e : Envelope α) : Envelope α :=
  { e with phase := 0, level := 0, active := true }

/-- Rust `Envelope::note_off`: unconditionally set the stage to
release (3). -/
def Envelope.note_off (e : Envelope α) : Envelope α :=
  { e with phase := 3 }

/-- Rust `Envelope::advance`: one fixed-step update of the ADSR state
machine.  Mirrors the Rust `match self.phase` on the numeric stage. -/
def Envelope.advance (e : Envelope α) (dt : α) : Envelope α :=
  if e.active then
    if e.phase = 0 then
      let level := e.level + dt / e.attack
      if level ≥ 1 then { e with level := 1, phase := 1 }
      else { e with level := level }
    else if e.phase = 1 then
      let level := e.level - dt * (1 - e.sustain) / e.decay
      if level ≤ e.sustain then { e with level := e.sustain, phase := 2 }
      else { e with level := level }
    else if e.phase = 2 then e
    else if e.phase = 3 then
      let level := e.level - dt * e.sustain / e.release
      if level ≤ 0 then { e with level := 0, active := false }
      else { e with level := level }
    else e
  else e

/-- Concrete envelope used as a counterexample input: active, stage 2
(sustain), sustain parameter 0, level 1/2. -/
def eC : Envelope ℚ := ⟨1, 1, 0, 1, 2, 1/2, true⟩

/-- Concrete envelope used as a witness input: active, stage 2
(sustain), sustain parameter 1/2, level 1/2. -/
def eW : Envelope ℚ := ⟨1, 1, 1/2, 1, 2, 1/2, true⟩

/-! ### Rust numeric primitives and the operator/synth layer, over `ℝ` -/

noncomputable section

/-- Rust `f32::clamp(lo, hi)`: restrict `x` to `[lo, hi]` (for
`lo ≤ hi`). -/
def clamp (x lo hi : ℝ) : ℝ := min (max x lo) hi

/-- Truncation toward zero, as performed by the Rust float `%`
remainder. -/
def truncToInt (x : ℝ) : ℤ := if 0 ≤ x then ⌊x⌋ else ⌈x⌉

/-- Rust `f32::round`: round half away from zero. -/
def rustRound (x : ℝ) : ℤ := if 0 ≤ x then ⌊x + 1 / 2⌋ else ⌈x - 1 / 2⌉

/-- Rust `%` on floats: `a - b * trunc(a / b)` (remainder with the sign
of the dividend). -/
def rustRem (a b : ℝ) : ℝ := a - b * truncToInt (a / b)

/-- One FM voice stage, mirroring the Rust `Operator` struct. -/
structure Operator where
  freq : ℝ
  phase : ℝ
  amp : ℝ
  envelope : Envelope ℝ
  ratio : ℝ
  feedback : ℝ
  sync : Bool
  bit_depth : ℕ

/-- Rust `Operator::new`. -/
def Operator.new (freq amp : ℝ) (env : Envelope ℝ)
    (ratio feedback : ℝ) (sync : Bool) (bit_depth : ℕ) : Operator :=
  { freq := freq, phase := 0, amp := amp, envelope := env,
    ratio := ratio, feedback := feedback, sync := sync, bit_depth := bit_depth }

/-- Rust `Operator::crush`: bit-crush quantization with step
`2 ^ (-bit_depth)`, then clamp to `[-1, 1]`. -/
def Operator.crush (op : Operator) (sample : ℝ) : ℝ :=
  let step := (2 : ℝ) ^ (-(op.bit_depth : ℤ))
  clamp ((rustRound (sample / step) : ℝ) * step) (-1) 1

/-- Rust `Operator::hard_sync`: reduce the phase with the Rust `%`
remainder by `2π` when sync is enabled, otherwise leave it unchanged. -/
def Operator.hard_sync (op : Operator) (phase : ℝ) : ℝ :=
  if op.sync then rustRem phase (2 * Real.pi) else phase

/-- Rust `Operator::sample`: one sample of the operator.  Returns the
updated operator state together with the produced output value. -/
def Operator.sample (op : Operator) (dt mod_in : ℝ) : Operator × ℝ :=
  let mod_freq := op.freq * op.ratio + mod_in * op.freq
  let fb := op.feedback * op.phase
  let phase1 := op.phase + 2 * Real.pi * mod_freq * dt + fb
  let phase2 := op.hard_sync phase1
  let env := op.envelope.advance dt
  let raw := op.amp * env.level * Real.sin phase2
  let clipped := clamp raw (-0.9) 0.9
  ({ op with phase := phase2, envelope := env }, op.crush clipped)

/-- The 4-operator synth: index 0 is the carrier, indices 1–3 the
serial modulators. -/
structure FMSynth where
  ops : Fin 4 → Operator
  sr : ℝ

/-- Rust `FMSynth::note_on`: broadcast `note_on` to every operator's
envelope. -/
def FMSynth.note_on (s : FMSynth) : FMSynth :=
  { s with ops := fun i => { s.ops i with envelope := (s.ops i).envelope.note_on } }

/-- Rust `FMSynth::note_off`: broadcast `note_off` to every operator's
envelope. -/
def FMSynth.note_off (s : FMSynth) : FMSynth :=
  { s with ops := fun i => { s.ops i with envelope := (s.ops i).envelope.note_off } }

/-- Rust `FMSynth::render_block`, with the output buffer of length `L`
modelled as the returned list: for each slot, sample operator 3 with
modulation 0, feed its output to operator 2, then operator 1, then the
carrier (operator 0), whose output is the slot value. -/
def FMSynth.render_block : FMSynth → ℕ → FMSynth × List ℝ
  | s, 0 => (s, [])
  | s, L + 1 =>
      let dt := 1 / s.sr
      let r3 := (s.ops 3).sample dt 0
      let r2 := (s.ops 2).sample dt r3.2
      let r1 := (s.ops 1).sample dt r2.2
      let r0 := (s.ops 0).sample dt r1.2
      let s1 : FMSynth :=
        { s with ops := fun i =>
            if i = 0 then r0.1 else if i = 1 then r1.1
            else if i = 2 then r2.1 else r3.1 }
      let rest := s1.render_block L
      (rest.1, r0.2 :: rest.2)

/-- Concrete operator used as a witness input: the carrier operator of
the Rust `FMSynth::new` preset. -/
def opW : Operator :=
  Operator.new 440 1 (Envelope.new 0.01 0.05 0.6 0.2) 1 0 false 16

/-- Concrete operator used as a witness input: the first modulator of
the Rust `FMSynth::new` preset (hard sync enabled). -/
def opS : Operator :=
  Operator.new 220 0.8 (Envelope.new 0.01 0.05 0.6 0.2) 1.618 0.05 true 12

end

/-! ### Envelope lemmas -/

/-- Advancing an inactive envelope is the identity. -/
lemma Envelope.advance_of_not_active {e : Envelope α} (h : e.active = false)
    (dt : α) : e.advance dt = e := by
  simp [Envelope.advance, h]

/-- Iterating `advance` on an inactive envelope changes nothing. -/
lemma Envelope.iterate_advance_of_not_active {e : Envelope α}
    (h : e.active = false) (dt : α) (n : ℕ) :
    (fun x : Envelope α => x.advance dt)^[n] e = e := by
  induction n with
  | zero => rfl
  | succ n ih =>
      rw [Function.iterate_succ_apply, Envelope.advance_of_not_active h, ih]

/-- Characterization of `advance` in the release stage of an active
envelope. -/
lemma Envelope.advance_release {e : Envelope α} (hact : e.active = true)
    (hph : e.phase = 3) (dt : α) :
    e.advance dt =
      if e.level - dt * e.sustain / e.release ≤ 0 then
        { e with level := 0, active := false }
      else
        { e with level := e.level - dt * e.sustain / e.release } := by
  have h0 : (3 : α) ≠ 0 := by norm_num
  have h1 : (3 : α) ≠ 1 := by norm_num
  have h2 : (3 : α) ≠ 2 := by norm_num
  simp [Envelope.advance, hact, hph, h0, h1, h2]

/-- A single `advance` keeps the level inside `[0, 1]` whenever the
envelope parameters are in range. -/
lemma advance_level_mem (e : Envelope α) (dt : α)
    (hatk : 0 < e.attack) (hdec : 0 < e.decay) (hrel : 0 < e.release)
    (hsus0 : 0 ≤ e.sustain) (hsus1 : e.sustain ≤ 1)
    (hdt : 0 < dt) (h0 : 0 ≤ e.level) (h1 : e.level ≤ 1) :
    0 ≤ (e.advance dt).level ∧ (e.advance dt).level ≤ 1 := by
  simp only [Envelope.advance]
  split_ifs with hact hph0 hge hph1 hle hph2 hph3 hle0
  · exact ⟨zero_le_one, le_refl 1⟩
  · have hd : 0 < dt / e.attack := div_pos hdt hatk
    rw [ge_iff_le, not_le] at hge
    constructor <;> simp only [] <;> linarith
  · exact ⟨hsus0, hsus1⟩
  · have hd : 0 ≤ dt * (1 - e.sustain) / e.decay :=
      div_nonneg (mul_nonneg hdt.le (by linarith)) hdec.le
    rw [not_le] at hle
    constructor <;> simp only [] <;> linarith
  · exact ⟨h0, h1⟩
  · exact ⟨le_refl 0, zero_le_one⟩
  · have hd : 0 ≤ dt * e.sustain / e.release :=
      div_nonneg (mul_nonneg hdt.le hsus0) hrel.le
    rw [not_le] at hle0
    constructor <;> simp only [] <;> linarith
  · exact ⟨h0, h1⟩
  · exact ⟨h0, h1⟩

/-- In the release stage the level never increases, stays nonnegative,
and the stage and parameters are untouched. -/
lemma advance_release_le (e : Envelope α) (dt : α)
    (hph : e.phase = 3) (h0 : 0 ≤ e.level) (hsus : 0 ≤ e.sustain)
    (hrel : 0 < e.release) (hdt : 0 < dt) :
    (e.advance dt).level ≤ e.level ∧ 0 ≤ (e.advance dt).level ∧
      (e.advance dt).phase = 3 ∧ (e.advance dt).sustain = e.sustain ∧
      (e.advance dt).release = e.release := by
  by_cases hact : e.active = true
  · rw [Envelope.advance_release hact hph]
    have hd : 0 ≤ dt * e.sustain / e.release :=
      div_nonneg (mul_nonneg hdt.le hsus) hrel.le
    split_ifs with hc
    · exact ⟨h0, le_refl 0, hph, rfl, rfl⟩
    · push_neg at hc
      exact ⟨by simp only []; linarith, by simp only []; linarith, hph, rfl, rfl⟩
  · rw [Bool.not_eq_true] at hact
    rw [Envelope.advance_of_not_active hact]
    exact ⟨le_refl _, h0, hph, rfl, rfl⟩

/-- An active envelope in the release stage whose level is at most
`(n + 1)` release decrements reaches level 0 and deactivates in
`n + 1` steps. -/
lemma release_reaches_zero (dt : α) (hdt : 0 < dt) :
    ∀ (n : ℕ) (e : Envelope α), e.active = true → e.phase = 3 →
      0 < e.release → 0 ≤ e.sustain → 0 ≤ e.level →
      e.level ≤ ((n : α) + 1) * (dt * e.sustain / e.release) →
      ((fun x : Envelope α => x.advance dt)^[n + 1] e).level = 0 ∧
        ((fun x : Envelope α => x.advance dt)^[n + 1] e).active = false := by
  intro n
  induction n with
  | zero =>
      intro e hact hph hrel hsus hlv hle
      have hc : e.level - dt * e.sustain / e.release ≤ 0 := by
        push_cast at hle
        linarith
      show ((e.advance dt).level = 0) ∧ ((e.advance dt).active = false)
      rw [Envelope.advance_release hact hph, if_pos hc]
      exact ⟨rfl, rfl⟩
  | succ n ih =>
      intro e hact hph hrel hsus hlv hle
      by_cases hc : e.level - dt * e.sustain / e.release ≤ 0
      · have hstep : e.advance dt = { e with level := 0, active := false } := by
          rw [Envelope.advance_release hact hph, if_pos hc]
        rw [Function.iterate_succ_apply, hstep,
          Envelope.iterate_advance_of_not_active rfl]
        exact ⟨rfl, rfl⟩
      · have hstep : e.advance dt =
            { e with level := e.level - dt * e.sustain / e.release } := by
          rw [Envelope.advance_release hact hph, if_neg hc]
        rw [Function.iterate_succ_apply, hstep]
        push_neg at hc
        refine ih _ hact hph hrel hsus (by simp only []; linarith) ?_
        show e.level - dt * e.sustain / e.release ≤
          ((n : α) + 1) * (dt * e.sustain / e.release)
        have hkey : ((n : α) + 1 + 1) * (dt * e.sustain / e.release) =
            ((n : α) + 1) * (dt * e.sustain / e.release) +
              dt * e.sustain / e.release := by ring
        push_cast at hle
        linarith

/-- The release-stage invariant (stage 3, nonnegative level, in-range
parameters) is preserved along the `advance` iteration. -/
lemma release_invariant (dt : α) (hdt : 0 < dt) (e : Envelope α)
    (hph : e.phase = 3) (h0 : 0 ≤ e.level) (hsus : 0 ≤ e.sustain)
    (hrel : 0 < e.release) (n : ℕ) :
    ((fun x : Envelope α => x.advance dt)^[n] e).phase = 3 ∧
      0 ≤ ((fun x : Envelope α => x.advance dt)^[n] e).level ∧
      0 ≤ ((fun x : Envelope α => x.advance dt)^[n] e).sustain ∧
      0 < ((fun x : Envelope α => x.advance dt)^[n] e).release := by
  induction n with
  | zero => exact ⟨hph, h0, hsus, hrel⟩
  | succ n ih =>
      rw [Function.iterate_succ_apply']
      obtain ⟨p3, l0, s0, r0⟩ := ih
      obtain ⟨-, hl, hp, hs, hr⟩ := advance_release_le _ dt p3 l0 s0 r0 hdt
      exact ⟨hp, hl, by rw [hs]; exact s0, by rw [hr]; exact r0⟩

/-! ### Lemmas on the Rust numeric primitives -/

/-- Upper clamp bound. -/
lemma clamp_le_hi (x lo hi : ℝ) : clamp x lo hi ≤ hi := min_le_right _ _

/-- Lower clamp bound. -/
lemma lo_le_clamp (x lo hi : ℝ) (h : lo ≤ hi) : lo ≤ clamp x lo hi :=
  le_min (le_max_right _ _) h

/-- Clamping an in-range value is the identity. -/
lemma clamp_eq_self (x lo hi : ℝ) (h1 : lo ≤ x) (h2 : x ≤ hi) :
    clamp x lo hi = x := by
  unfold clamp
  rw [max_eq_left h1, min_eq_left h2]

/-- Clamping an overshooting value yields the upper bound. -/
lemma clamp_eq_hi (x lo hi : ℝ) (hlo : lo ≤ hi) (h : hi ≤ x) :
    clamp x lo hi = hi := by
  unfold clamp
  rw [max_eq_left (hlo.trans h), min_eq_right h]

/-- Clamping an undershooting value yields the lower bound. -/
lemma clamp_eq_lo (x lo hi : ℝ) (hlo : lo ≤ hi) (h : x ≤ lo) :
    clamp x lo hi = lo := by
  unfold clamp
  rw [max_eq_right h, min_eq_left hlo]

/-- Rounding an exact integer returns it. -/
lemma rustRound_intCast (k : ℤ) : rustRound (k : ℝ) = k := by
  unfold rustRound
  split
  · rw [show ((k : ℝ) + 1 / 2) = (k : ℝ) + (1 / 2 : ℝ) from rfl,
      Int.floor_int_add]
    norm_num
  · rw [show ((k : ℝ) - 1 / 2) = (-(1 / 2 : ℝ)) + (k : ℝ) by ring]
    rw [show (-(1 / 2 : ℝ)) + (k : ℝ) = (-(1/2) : ℝ) + (k : ℤ) from rfl]
    rw [Int.ceil_add_int]
    norm_num

/-- The quantization step is positive. -/
lemma step_pos (b : ℕ) : (0 : ℝ) < (2 : ℝ) ^ (-(b : ℤ)) :=
  zpow_pos (by norm_num) _

/-- Crushing an in-range integer multiple of the step is the
identity. -/
lemma crush_int_mul (op : Operator) (k : ℤ)
    (h1 : -1 ≤ (k : ℝ) * (2 : ℝ) ^ (-(op.bit_depth : ℤ)))
    (h2 : (k : ℝ) * (2 : ℝ) ^ (-(op.bit_depth : ℤ)) ≤ 1) :
    op.crush ((k : ℝ) * (2 : ℝ) ^ (-(op.bit_depth : ℤ))) =
      (k : ℝ) * (2 : ℝ) ^ (-(op.bit_depth : ℤ)) := by
  simp only [Operator.crush]
  have hs : ((2 : ℝ) ^ (-(op.bit_depth : ℤ))) ≠ 0 := (step_pos _).ne'
  rw [mul_div_assoc, div_self hs, mul_one, rustRound_intCast k]
  exact clamp_eq_self _ _ _ h1 h2

/-- One is an integer multiple of the quantization step. -/
lemma one_eq_int_mul_step (b : ℕ) :
    (1 : ℝ) = ((2 ^ b : ℤ) : ℝ) * (2 : ℝ) ^ (-(b : ℤ)) := by
  push_cast
  rw [zpow_neg, ← zpow_natCast (2 : ℝ) b]
  rw [mul_inv_cancel₀ (by positivity)]

/-- Crushing is idempotent (for every input). -/
lemma crush_crush (op : Operator) (x : ℝ) :
    op.crush (op.crush x) = op.crush x := by
  set b := op.bit_depth with hb
  set step := (2 : ℝ) ^ (-(b : ℤ)) with hstep
  have hs0 : (0 : ℝ) < step := step_pos b
  set k : ℤ := rustRound (x / step) with hk
  have hcx : op.crush x = clamp ((k : ℝ) * step) (-1) 1 := rfl
  rcases le_or_lt (-1 : ℝ) ((k : ℝ) * step) with h1 | h1
  · rcases le_or_lt ((k : ℝ) * step) 1 with h2 | h2
    · rw [hcx, clamp_eq_self _ _ _ h1 h2]
      exact crush_int_mul op k h1 h2
    · rw [hcx, clamp_eq_hi _ _ _ (by norm_num) h2.le]
      have hone := one_eq_int_mul_step b
      calc op.crush 1 = op.crush (((2 ^ b : ℤ) : ℝ) * step) := by rw [← hone]
        _ = ((2 ^ b : ℤ) : ℝ) * step :=
            crush_int_mul op _ (by rw [← hone]; norm_num) (by rw [← hone])
        _ = 1 := hone.symm
  · rw [hcx, clamp_eq_lo _ _ _ (by norm_num) h1.le]
    have hone : (-1 : ℝ) = ((-(2 ^ b) : ℤ) : ℝ) * step := by
      push_cast
      rw [neg_mul]
      rw [hstep, zpow_neg, ← zpow_natCast (2 : ℝ) b]
      rw [mul_inv_cancel₀ (by positivity)]
    calc op.crush (-1) = op.crush (((-(2 ^ b) : ℤ) : ℝ) * step) := by rw [← hone]
      _ = ((-(2 ^ b) : ℤ) : ℝ) * step :=
          crush_int_mul op _ (by rw [← hone]) (by rw [← hone]; norm_num)
      _ = -1 := hone.symm

/-- The crushed value always lies in `[-1, 1]`. -/
lemma crush_mem (op : Operator) (x : ℝ) :
    -1 ≤ op.crush x ∧ op.crush x ≤ 1 := by
  simp only [Operator.crush]
  exact ⟨lo_le_clamp _ _ _ (by norm_num), clamp_le_hi _ _ _⟩

/-- The Rust float remainder is strictly smaller than the (positive)
divisor in absolute value. -/
lemma abs_rustRem_lt (a b : ℝ) (hb : 0 < b) : |rustRem a b| < b := by
  have h1 : b * (a / b) = a := by field_simp
  have h2 : rustRem a b = b * (a / b - (truncToInt (a / b) : ℝ)) := by
    unfold rustRem
    rw [mul_sub, h1]
  have h3 : |a / b - (truncToInt (a / b) : ℝ)| < 1 := by
    unfold truncToInt
    split
    · rw [abs_lt]
      constructor
      · have := Int.floor_le (a / b)
        linarith
      · have := Int.lt_floor_add_one (a / b)
        linarith
    · rw [abs_lt]
      constructor
      · have := Int.ceil_lt_add_one (a / b)
        linarith
      · have := Int.le_ceil (a / b)
        linarith
  calc |rustRem a b| = b * |a / b - (truncToInt (a / b) : ℝ)| := by
        rw [h2, abs_mul, abs_of_pos hb]
    _ < b * 1 := mul_lt_mul_of_pos_left h3 hb
    _ = b := mul_one b

/-- Output list length of `render_block` equals the requested block
length. -/
lemma render_block_length :
    ∀ (L : ℕ) (s : FMSynth), ((s.render_block L).2).length = L
  | 0, _ => rfl
  | L + 1, s => by
      show ((FMSynth.render_block s (L + 1)).2).length = L + 1
      rw [FMSynth.render_block]
      simp only [List.length_cons]
      rw [render_block_length L _]

/-! ### Claims -/

/-- C1: one call to `Operator.sample dt m` with `dt > 0` updates the
state with: effective frequency `freq * ratio + m * freq`, feedback
term `feedback * (phase before the call)`, new phase `old phase +
2π * effective frequency * dt + feedback term` (wrapped by `hard_sync`
when sync is enabled), the owned envelope advanced by `dt`; and it
returns the quantization (`crush`) of `amp * (advanced envelope level)
* sin (new phase)` clamped to `[-0.9, 0.9]` before quantization. -/
theorem sample_formula (op : Operator) (dt m : ℝ) (hdt : 0 < dt) :
    op.sample dt m =
      ({ op with
          phase := op.hard_sync
            (op.phase + 2 * Real.pi * (op.freq * op.ratio + m * op.freq) * dt
              + op.feedback * op.phase),
          envelope := op.envelope.advance dt },
        op.crush (clamp
          (op.amp * (op.envelope.advance dt).level *
            Real.sin (op.hard_sync
              (op.phase + 2 * Real.pi * (op.freq * op.ratio + m * op.freq) * dt
                + op.feedback * op.phase)))
          (-0.9) 0.9)) := rfl

/-- Witness for C1 at the preset carrier operator, `dt = 1`, `m = 0`. -/
theorem sample_formula_witness :
    (0 : ℝ) < 1 ∧ (opW.sample 1 0).1.envelope = opW.envelope.advance 1 :=
  ⟨one_pos, by rw [sample_formula opW 1 0 one_pos]⟩

/-- C2: `render_block` produces exactly `L` slots, and each block of
length `L + 1` is: one serial-chain step (operator 3 sampled with
modulation input 0, its output fed to operator 2, that output to
operator 1, operator 1's output to the carrier operator 0, whose output
is the first slot, with `dt = 1 / sample_rate` and one `sample` call
per operator), followed by rendering the remaining `L` slots from the
updated state only. -/
theorem render_block_serial_chain (s : FMSynth) (L : ℕ) :
    ((s.render_block L).2).length = L ∧
      s.render_block (L + 1) =
        (let dt := 1 / s.sr
         let r3 := (s.ops 3).sample dt 0
         let r2 := (s.ops 2).sample dt r3.2
         let r1 := (s.ops 1).sample dt r2.2
         let r0 := (s.ops 0).sample dt r1.2
         let s1 : FMSynth :=
           { s with ops := fun i =>
               if i = 0 then r0.1 else if i = 1 then r1.1
               else if i = 2 then r2.1 else r3.1 }
         ((s1.render_block L).1, r0.2 :: (s1.render_block L).2)) :=
  ⟨render_block_length L s, rfl⟩

/-- C3 (amended): for an active envelope with positive parameters,
sustain in `[0, 1]` and `0 ≤ level ≤ sustain`, after `note_off` the
iterated `advance dt` levels are non-increasing, and the level reaches
exactly 0 with `active = false` within `⌈release / dt⌉` calls.  (The
claim as stated, without the `level ≤ sustain` bound, is refuted by
`noteOff_release_cex`: the release decrement is `dt * sustain /
release`, independent of the level.) -/
theorem noteOff_release_terminates {α : Type*} [LinearOrderedField α]
    [FloorRing α] (e : Envelope α) (dt : α)
    (hact : e.active = true)
    (hatk : 0 < e.attack) (hdec : 0 < e.decay) (hrel : 0 < e.release)
    (hsus0 : 0 ≤ e.sustain) (hsus1 : e.sustain ≤ 1)
    (hlv0 : 0 ≤ e.level) (hlvs : e.level ≤ e.sustain)
    (hdt : 0 < dt) :
    (∀ n : ℕ,
        ((fun x : Envelope α => x.advance dt)^[n + 1] e.note_off).level ≤
          ((fun x : Envelope α => x.advance dt)^[n] e.note_off).level) ∧
      ∃ n ≤ (⌈e.release / dt⌉).toNat,
        ((fun x : Envelope α => x.advance dt)^[n] e.note_off).level = 0 ∧
          ((fun x : Envelope α => x.advance dt)^[n] e.note_off).active = false := by
  have hph : e.note_off.phase = 3 := rfl
  constructor
  · intro n
    have inv := release_invariant dt hdt e.note_off hph hlv0 hsus0 hrel n
    rw [Function.iterate_succ_apply']
    exact (advance_release_le _ dt inv.1 inv.2.1 inv.2.2.1 inv.2.2.2 hdt).1
  · set N : ℕ := (⌈e.release / dt⌉).toNat with hN
    have hceil : (0 : ℤ) < ⌈e.release / dt⌉ :=
      Int.ceil_pos.mpr (div_pos hrel hdt)
    have hNpos : 0 < N := Int.lt_toNat.mpr hceil
    obtain ⟨m, hm⟩ : ∃ m, N = m + 1 :=
      ⟨N - 1, (Nat.succ_pred_eq_of_pos hNpos).symm⟩
    have hcast : (N : α) = ((⌈e.release / dt⌉ : ℤ) : α) := by
      rw [hN, ← Int.cast_natCast (R := α), Int.toNat_of_nonneg hceil.le]
    have hge : e.release / dt ≤ (N : α) := by
      rw [hcast]
      exact Int.le_ceil _
    have hd : 0 ≤ dt * e.sustain / e.release :=
      div_nonneg (mul_nonneg hdt.le hsus0) hrel.le
    have hsval : e.release / dt * (dt * e.sustain / e.release) = e.sustain := by
      field_simp
      ring
    have hbound : e.level ≤ (N : α) * (dt * e.sustain / e.release) := by
      calc e.level ≤ e.sustain := hlvs
        _ = e.release / dt * (dt * e.sustain / e.release) := hsval.symm
        _ ≤ (N : α) * (dt * e.sustain / e.release) :=
            mul_le_mul_of_nonneg_right hge hd
    have hmc : ((m : α) + 1) = (N : α) := by
      rw [hm]
      push_cast
      ring
    have hdone := release_reaches_zero dt hdt m e.note_off hact hph hrel hsus0
      hlv0 (by rw [hmc]; exact hbound)
    refine ⟨m + 1, ?_, hdone⟩
    omega

/-- Counterexample to C3 as stated: `eC` is active with positive
attack/decay/release and sustain 0 in `[0, 1]`, yet with `dt = 1` no
iterate up to `⌈release / dt⌉` ever reaches level 0 and deactivates
(the level stays at 1/2 because the release decrement is
`dt * sustain / release = 0`). -/
theorem noteOff_release_cex :
    (eC.active = true ∧ 0 < eC.attack ∧ 0 < eC.decay ∧ 0 < eC.release ∧
      0 ≤ eC.sustain ∧ eC.sustain ≤ 1 ∧ 0 < (1 : ℚ)) ∧
    ∀ n ≤ (⌈eC.release / (1 : ℚ)⌉).toNat,
      ¬(((fun x : Envelope ℚ => x.advance 1)^[n] eC.note_off).level = 0 ∧
        ((fun x : Envelope ℚ => x.advance 1)^[n] eC.note_off).active = false) := by
  constructor
  · refine ⟨rfl, ?_, ?_, ?_, ?_, ?_, ?_⟩ <;> norm_num [eC]
  · have hceil : (⌈eC.release / (1 : ℚ)⌉).toNat = 1 := by
      norm_num [eC]
    rw [hceil]
    have h1 : eC.note_off.advance 1 = eC.note_off := by
      simp only [eC, Envelope.note_off, Envelope.advance]
      norm_num
    intro n hn
    interval_cases n
    · simp [eC, Envelope.note_off]
    · simp only [Function.iterate_one, h1]
      simp [eC, Envelope.note_off]

/-- Witness for C3 (amended) at a concrete rational envelope in the
sustain stage with `level = sustain = 1/2` and `dt = 1`. -/
theorem noteOff_release_witness :
    (eW.active = true ∧ 0 < eW.attack ∧ 0 < eW.decay ∧ 0 < eW.release ∧
      0 ≤ eW.sustain ∧ eW.sustain ≤ 1 ∧ 0 ≤ eW.level ∧ eW.level ≤ eW.sustain ∧
      0 < (1 : ℚ)) ∧
    ((∀ n : ℕ,
        ((fun x : Envelope ℚ => x.advance 1)^[n + 1] eW.note_off).level ≤
          ((fun x : Envelope ℚ => x.advance 1)^[n] eW.note_off).level) ∧
      ∃ n ≤ (⌈eW.release / (1 : ℚ)⌉).toNat,
        ((fun x : Envelope ℚ => x.advance 1)^[n] eW.note_off).level = 0 ∧
          ((fun x : Envelope ℚ => x.advance 1)^[n] eW.note_off).active = false) :=
  ⟨⟨rfl, by norm_num [eW], by norm_num [eW], by norm_num [eW], by norm_num [eW],
      by norm_num [eW], by norm_num [eW], by norm_num [eW], by norm_num⟩,
    noteOff_release_terminates eW 1 rfl (by norm_num [eW]) (by norm_num [eW])
      (by norm_num [eW]) (by norm_num [eW]) (by norm_num [eW])
      (by norm_num [eW]) (by norm_num [eW]) (by norm_num)⟩

/-- C4: with parameters in range (`attack`, `decay`, `release`
positive, `sustain` in `[0, 1]`), the predicate `0 ≤ level ≤ 1` holds
after construction and is preserved by `note_on`, `note_off` and
`advance dt` for every `dt > 0`, for arbitrary (mutated) in-range
parameter values. -/
theorem level_in_unit_interval (A D S R : α) (e : Envelope α) (dt : α)
    (hA : 0 < A) (hD : 0 < D) (hR : 0 < R) (hS0 : 0 ≤ S) (hS1 : S ≤ 1)
    (hatk : 0 < e.attack) (hdec : 0 < e.decay) (hrel : 0 < e.release)
    (hsus0 : 0 ≤ e.sustain) (hsus1 : e.sustain ≤ 1)
    (hdt : 0 < dt) (h0 : 0 ≤ e.level) (h1 : e.level ≤ 1) :
    (0 ≤ (Envelope.new A D S R).level ∧ (Envelope.new A D S R).level ≤ 1) ∧
      (0 ≤ e.note_on.level ∧ e.note_on.level ≤ 1) ∧
      (0 ≤ e.note_off.level ∧ e.note_off.level ≤ 1) ∧
      (0 ≤ (e.advance dt).level ∧ (e.advance dt).level ≤ 1) := by
  refine ⟨⟨le_refl 0, zero_le_one⟩, ⟨le_refl 0, zero_le_one⟩, ⟨h0, h1⟩, ?_⟩
  exact advance_level_mem e dt hatk hdec hrel hsus0 hsus1 hdt h0 h1

/-- Witness for C4 at a concrete rational envelope and parameters. -/
theorem level_in_unit_interval_witness :
    ((0:ℚ) < 1 ∧ (0:ℚ) < 1 ∧ (0:ℚ) < 1 ∧ (0:ℚ) ≤ 1/2 ∧ (1/2:ℚ) ≤ 1 ∧
      0 < eW.attack ∧ 0 < eW.decay ∧ 0 < eW.release ∧
      0 ≤ eW.sustain ∧ eW.sustain ≤ 1 ∧ (0:ℚ) < 1 ∧
      0 ≤ eW.level ∧ eW.level ≤ 1) ∧
    ((0 ≤ (Envelope.new (1:ℚ) 1 (1/2) 1).level ∧
        (Envelope.new (1:ℚ) 1 (1/2) 1).level ≤ 1) ∧
      (0 ≤ eW.note_on.level ∧ eW.note_on.level ≤ 1) ∧
      (0 ≤ eW.note_off.level ∧ eW.note_off.level ≤ 1) ∧
      (0 ≤ (eW.advance 1).level ∧ (eW.advance 1).level ≤ 1)) :=
  ⟨⟨by norm_num, by norm_num, by norm_num, by norm_num, by norm_num,
      by norm_num [eW], by norm_num [eW], by norm_num [eW], by norm_num [eW],
      by norm_num [eW], by norm_num, by norm_num [eW], by norm_num [eW]⟩,
    level_in_unit_interval 1 1 (1/2) 1 eW 1 (by norm_num) (by norm_num)
      (by norm_num) (by norm_num) (by norm_num) (by norm_num [eW])
      (by norm_num [eW]) (by norm_num [eW]) (by norm_num [eW])
      (by norm_num [eW]) (by norm_num) (by norm_num [eW]) (by norm_num [eW])⟩

/-- C5: for every operator state, `dt > 0` and modulation input, the
value returned by `sample` lies in `[-1, 1]` and is exactly the
rounding of the clipped raw value to a multiple of the step
`2 ^ (-bit_depth)` followed by a final clamp to `[-1, 1]`. -/
theorem sample_output_bounded (op : Operator) (dt m : ℝ) (hdt : 0 < dt) :
    -1 ≤ (op.sample dt m).2 ∧ (op.sample dt m).2 ≤ 1 ∧
      (op.sample dt m).2 =
        clamp
          ((rustRound
              (clamp
                  (op.amp * (op.envelope.advance dt).level *
                    Real.sin (op.hard_sync
                      (op.phase +
                        2 * Real.pi * (op.freq * op.ratio + m * op.freq) * dt +
                        op.feedback * op.phase)))
                  (-0.9) 0.9 /
                (2 : ℝ) ^ (-(op.bit_depth : ℤ))) : ℝ) *
            (2 : ℝ) ^ (-(op.bit_depth : ℤ)))
          (-1) 1 := by
  obtain ⟨a, b⟩ := crush_mem op
    (clamp
      (op.amp * (op.envelope.advance dt).level *
        Real.sin (op.hard_sync
          (op.phase + 2 * Real.pi * (op.freq * op.ratio + m * op.freq) * dt +
            op.feedback * op.phase)))
      (-0.9) 0.9)
  exact ⟨a, b, rfl⟩

/-- Witness for C5 at the preset carrier operator, `dt = 1`, `m = 0`. -/
theorem sample_output_bounded_witness :
    (0 : ℝ) < 1 ∧ -1 ≤ (opW.sample 1 0).2 ∧ (opW.sample 1 0).2 ≤ 1 :=
  ⟨one_pos, (sample_output_bounded opW 1 0 one_pos).1,
    (sample_output_bounded opW 1 0 one_pos).2.1⟩

/-- C6: for every fixed `bit_depth` and every `x` in `[-1, 1]`, the
quantization `crush` is idempotent. -/
theorem crush_idempotent (op : Operator) (x : ℝ) (h1 : -1 ≤ x) (h2 : x ≤ 1) :
    op.crush (op.crush x) = op.crush x :=
  crush_crush op x

/-- Witness for C6 at the preset carrier operator and `x = 1/2`. -/
theorem crush_idempotent_witness :
    ((-1 : ℝ) ≤ 1/2 ∧ (1/2 : ℝ) ≤ 1) ∧
      opW.crush (opW.crush (1/2)) = opW.crush (1/2) :=
  ⟨⟨by norm_num, by norm_num⟩,
    crush_idempotent opW (1/2) (by norm_num) (by norm_num)⟩

/-- C7: when hard sync is enabled, the phase stored by `sample` is the
Rust remainder of the updated phase by `2π` — it differs from the
updated phase by an integer multiple of `2π` and is bounded in absolute
value by `2π`; when hard sync is disabled, the updated phase is stored
unchanged (no wrapping). -/
theorem hard_sync_phase_bound (op : Operator) (dt m : ℝ) (hdt : 0 < dt) :
    (op.sync = true →
        (op.sample dt m).1.phase =
            rustRem
              (op.phase + 2 * Real.pi * (op.freq * op.ratio + m * op.freq) * dt +
                op.feedback * op.phase)
              (2 * Real.pi) ∧
          (∃ k : ℤ,
            (op.sample dt m).1.phase =
              op.phase + 2 * Real.pi * (op.freq * op.ratio + m * op.freq) * dt +
                op.feedback * op.phase - 2 * Real.pi * k) ∧
          |(op.sample dt m).1.phase| < 2 * Real.pi) ∧
      (op.sync = false →
        (op.sample dt m).1.phase =
          op.phase + 2 * Real.pi * (op.freq * op.ratio + m * op.freq) * dt +
            op.feedback * op.phase) := by
  have hp : (op.sample dt m).1.phase =
      op.hard_sync
        (op.phase + 2 * Real.pi * (op.freq * op.ratio + m * op.freq) * dt +
          op.feedback * op.phase) := rfl
  constructor
  · intro hs
    have hsync : ∀ p : ℝ, op.hard_sync p = rustRem p (2 * Real.pi) := by
      intro p
      simp [Operator.hard_sync, hs]
    refine ⟨by rw [hp, hsync], ⟨truncToInt
      ((op.phase + 2 * Real.pi * (op.freq * op.ratio + m * op.freq) * dt +
        op.feedback * op.phase) / (2 * Real.pi)), ?_⟩, ?_⟩
    · rw [hp, hsync]
      rfl
    · rw [hp, hsync]
      exact abs_rustRem_lt _ _ Real.two_pi_pos
  · intro hs
    rw [hp]
    simp [Operator.hard_sync, hs]

/-- Witness for C7 at the preset first modulator (sync enabled),
`dt = 1`, `m = 0`. -/
theorem hard_sync_phase_bound_witness :
    ((0:ℝ) < 1 ∧ opS.sync = true) ∧ |(opS.sample 1 0).1.phase| < 2 * Real.pi :=
  ⟨⟨one_pos, rfl⟩, ((hard_sync_phase_bound opS 1 0 one_pos).1 rfl).2.2⟩

/-- C8 (amended): `note_off` forces the stage to release (3) from
whatever stage is current, changing nothing else — in particular it
never changes `level` and never re-activates an inactive envelope.
(The claim's stronger statement that on an inactive envelope the whole
state is unchanged is refuted by `note_off_inactive_changes_state`:
the stage field is written unconditionally.) -/
theorem note_off_only_stage (e : Envelope α) :
    e.note_off.phase = 3 ∧ e.note_off.level = e.level ∧
      e.note_off.active = e.active ∧ e.note_off.attack = e.attack ∧
      e.note_off.decay = e.decay ∧ e.note_off.sustain = e.sustain ∧
      e.note_off.release = e.release :=
  ⟨rfl, rfl, rfl, rfl, rfl, rfl, rfl⟩

/-- Counterexample to C8 as stated: a freshly constructed envelope is
inactive with stage 0, yet `note_off` changes its state (the stage
becomes 3), so `note_off` is not a no-op on inactive envelopes. -/
theorem note_off_inactive_changes_state :
    (Envelope.new (1:ℚ) 1 1 1).active = false ∧
      (Envelope.new (1:ℚ) 1 1 1).note_off.phase ≠
        (Envelope.new (1:ℚ) 1 1 1).phase := by
  refine ⟨rfl, ?_⟩
  norm_num [Envelope.new, Envelope.note_off]

/-- C9: rendering a block of length 0 returns the synth state
unchanged (all operators, envelopes and parameters) and an empty
buffer. -/
theorem render_block_zero_frame (s : FMSynth) : s.render_block 0 = (s, []) := rfl

/-- C10: the engine's `note_on` resets each of the 4 envelopes (level
0, stage attack, active) but leaves every operator's oscillator phase
accumulator and all operator parameters unchanged. -/
theorem note_on_resets_envelopes_only (s : FMSynth) (i : Fin 4) :
    ((s.note_on).ops i).envelope.level = 0 ∧
      ((s.note_on).ops i).envelope.phase = 0 ∧
      ((s.note_on).ops i).envelope.active = true ∧
      ((s.note_on).ops i).phase = (s.ops i).phase ∧
      ((s.note_on).ops i).freq = (s.ops i).freq ∧
      ((s.note_on).ops i).amp = (s.ops i).amp ∧
      ((s.note_on).ops i).ratio = (s.ops i).ratio ∧
      ((s.note_on).ops i).feedback = (s.ops i).feedback ∧
      ((s.note_on).ops i).sync = (s.ops i).sync ∧
      ((s.note_on).ops i).bit_depth = (s.ops i).bit_depth :=
  ⟨rfl, rfl, rfl, rfl, rfl, rfl, rfl, rfl, rfl, rfl⟩

end FM
